import Mathlib

/-
Verification of the OWNERS-file analyzer (src/main.py) against its
natural-language specification.

The core of the program is OwnersAnalyzer.analyze_owners_files:
  - path normalization:   clean_path = path.replace("/OWNERS", "")
  - line filtering:       line.strip(); skip empty lines and lines whose
                          first character is the hash sign
  - keyword dispatch:     line.startswith("jira-project") and, failing
                          that, line.startswith("jira-component")
  - value extraction:     re.search with the pattern consisting of the
                          keyword, one or more whitespace characters, an
                          optional single or double quote, a captured run
                          of one or more non-quote characters, and an
                          optional closing quote
  - aggregation:          a dict from cleaned path to a record holding the
                          parallel label and owner lists, last write wins,
                          entries added only when both lists are nonempty.

Strings are modelled as lists of characters.  Python regular-expression
search is modelled for the one fixed pattern shape the program uses, with
its leftmost-first, greedy-with-backtracking semantics made explicit.
-/

namespace O2co

/-- Repository strings are modelled as lists of characters. -/
abbrev Str := List Char

/-- The single-quote character. -/
def sq : Char := Char.ofNat 39

/-- The double-quote character. -/
def dq : Char := Char.ofNat 34

/-- The whitespace class used by Python str.strip and the regex class
of one or more whitespace characters, restricted to ASCII. -/
def pyIsSpace (c : Char) : Bool :=
  c = ' ' || c = '\t' || c = '\n' || c = '\r' || c = Char.ofNat 11 || c = Char.ofNat 12

/-- Python str.strip: remove leading and trailing whitespace. -/
def pyStrip (s : Str) : Str :=
  ((s.dropWhile pyIsSpace).reverse.dropWhile pyIsSpace).reverse

/-- Python content.split on the newline character: every newline separates,
empty pieces are kept, the empty string splits to one empty piece. -/
def splitNl (s : Str) : List Str :=
  s.foldr
    (fun c acc =>
      match acc with
      | [] => [[c]]
      | a :: as => if c = '\n' then [] :: a :: as else (c :: a) :: as)
    [[]]

/-- Python s.startswith(pat): beginsWith pat s tests whether pat is an
initial segment of s. -/
def beginsWith : Str → Str → Bool
  | [], _ => true
  | _ :: _, [] => false
  | p :: ps, c :: cs => p = c && beginsWith ps cs

/-- Membership in the regex character class of single or double quote. -/
def isQuote (c : Char) : Bool := c = sq || c = dq

/-- The greedy captured run of the regex: the maximal run of characters
that are neither a single nor a double quote. -/
def takeNonQuote (s : Str) : Str := s.takeWhile (fun c => !(isQuote c))

/-- The part of the regex after the whitespace: an optional quote
(preferred when present), then a captured run of one or more non-quote
characters, then an optional closing quote.  Input is the text directly
after the whitespace consumed so far; output is the capture group. -/
def tailMatch : Str → Option Str
  | [] => none
  | c :: t =>
    if isQuote c then
      let cap := takeNonQuote t
      if cap = [] then none else some cap
    else some (takeNonQuote (c :: t))

/-- Backtracking over the greedy one-or-more-whitespace part: rest is the
text after the keyword, and the whitespace run lengths k, k-1, ..., 1 are
tried in that order. -/
def tryWs (rest : Str) : Nat → Option Str
  | 0 => none
  | k + 1 =>
    match tailMatch (rest.drop (k + 1)) with
    | some cap => some cap
    | none => tryWs rest k

/-- Matching the pattern at one fixed start position, given the text that
follows the keyword occurrence: the one-or-more-whitespace part is greedy,
taking the maximal whitespace run first and backtracking downwards. -/
def matchAfterKw (rest : Str) : Option Str :=
  tryWs rest (rest.takeWhile pyIsSpace).length

/-- Python re.search for the fixed pattern: keyword, one or more
whitespace characters, an optional quote, a captured run of one or more
non-quote characters, an optional closing quote.  Start positions are
tried left to right; the result is the capture group of the leftmost
match. -/
def reSearch (kw : Str) : Str → Option Str
  | [] => none
  | c :: s =>
    if beginsWith kw (c :: s) then
      match matchAfterKw ((c :: s).drop kw.length) with
      | some cap => some cap
      | none => reSearch kw s
    else reSearch kw s

/-- The first recognized keyword token. -/
def kwProj : Str := ("jira-project").toList

/-- The second recognized keyword token. -/
def kwComp : Str := ("jira-component").toList

/-- The contribution of one stripped, nonempty, non-comment line: the
keyword dispatch of the code tests startswith jira-project and, failing
that, startswith jira-component; a successful regex search then yields
one pair of keyword and captured value. -/
def lineContrib (line : Str) : Option (Str × Str) :=
  if beginsWith kwProj line then
    (reSearch kwProj line).map (fun v => (kwProj, v))
  else if beginsWith kwComp line then
    (reSearch kwComp line).map (fun v => (kwComp, v))
  else none

/-- Processing of one raw line of the file: strip, then skip the line when
it is empty or starts with the hash character, otherwise take its
contribution. -/
def parseLine (raw : Str) : Option (Str × Str) :=
  let line := pyStrip raw
  if line ≠ [] ∧ ¬ (beginsWith ['#'] line = true) then lineContrib line else none

/-- The parser of one OWNERS file content: split on newlines, process the
lines in order, each contributing at most one pair, in encounter order.
The code accumulates the two parallel lists labels and owners in lockstep;
this is modelled as the list of pairs, of which those lists are the two
projections. -/
def parse (content : Str) : List (Str × Str) :=
  (splitNl content).filterMap parseLine

/-- The literal substring removed by path normalization. -/
def ownersPat : Str := ("/OWNERS").toList

/-- Python path.replace of the substring slash-OWNERS with the empty
string: scan left to right, remove every non-overlapping occurrence,
resume scanning after each removed occurrence.  The occurrence test is
written as a literal character pattern so that the recursion is
structural; the lemma cleanPath_cons below restates it through
beginsWith. -/
def cleanPath : Str → Str
  | [] => []
  | '/' :: 'O' :: 'W' :: 'N' :: 'E' :: 'R' :: 'S' :: rest => cleanPath rest
  | c :: s => c :: cleanPath s

/-- One entry of the output map: the parallel label and owner lists. -/
structure OwnRecord where
  labels : List Str
  owners : List Str
deriving DecidableEq

/-- The output map, modelled as a Python dict: an association list in
insertion order with unique keys. -/
abbrev OwnMap := List (Str × OwnRecord)

/-- Python dict assignment: when the key is present its value is replaced
in place, otherwise the pair is appended at the end. -/
def dictInsert : OwnMap → Str → OwnRecord → OwnMap
  | [], k, v => [(k, v)]
  | (k0, v0) :: m, k, v =>
    if k0 = k then (k, v) :: m else (k0, v0) :: dictInsert m k v

/-- One iteration of the aggregation loop over a discovered path: clean
the path, fetch the content, skip when the fetch is absent or the content
is empty, parse, and record the entry only when the label and owner lists
are both nonempty. -/
def processPath (lookup : Str → Option Str) (results : OwnMap) (path : Str) : OwnMap :=
  let clean := cleanPath path
  match lookup path with
  | some content =>
    if content ≠ [] then
      let prs := parse content
      let labels := prs.map Prod.fst
      let owners := prs.map Prod.snd
      if labels ≠ [] ∧ owners ≠ [] then dictInsert results clean ⟨labels, owners⟩
      else results
    else results
  | none => results

/-- The aggregator analyze_owners_files: fold the per-path processing over
the discovered paths in order, starting from the empty dict. -/
def analyze (paths : List Str) (lookup : Str → Option Str) : OwnMap :=
  paths.foldl (processPath lookup) []

/-- Coercion of a string literal into the character-list model. -/
def toL (s : String) : Str := s.toList

/-- Occurrence of pat as a contiguous substring, Python in-operator style:
pat occurs when it is an initial segment of some suffix. -/
def hasSubstr (pat : Str) : Str → Bool
  | [] => pat.isEmpty
  | c :: s => beginsWith pat (c :: s) || hasSubstr pat s

theorem beginsWith_iff_take (p : Str) :
    ∀ s : Str, beginsWith p s = true ↔ s.take p.length = p := by
  induction p with
  | nil => intro s; simp [beginsWith]
  | cons a p ih =>
    intro s
    cases s with
    | nil => simp [beginsWith]
    | cons c cs =>
      simp only [beginsWith, Bool.and_eq_true, decide_eq_true_eq, List.length_cons,
        List.take_succ_cons, List.cons.injEq, ih]
      constructor
      · rintro ⟨h1, h2⟩; exact ⟨h1.symm, h2⟩
      · rintro ⟨h1, h2⟩; exact ⟨h1.symm, h2⟩

theorem beginsWith_append (p t : Str) : beginsWith p (p ++ t) = true := by
  rw [beginsWith_iff_take, List.take_left]

theorem drop_append_len (p t : Str) : (p ++ t).drop p.length = t :=
  List.drop_left p t

/-- The scanning step of cleanPath, phrased through beginsWith: when the
pattern is an initial segment it is removed and scanning resumes after
it, otherwise the head character is kept. -/
theorem cleanPath_cons (c : Char) (s : Str) :
    cleanPath (c :: s) =
      if beginsWith ownersPat (c :: s) then cleanPath ((c :: s).drop ownersPat.length)
      else c :: cleanPath s := by
  rw [cleanPath.eq_def]
  split
  · rename_i heq
    exact absurd heq (by simp)
  · rename_i rest heq
    rw [heq]
    have harr : ownersPat ++ rest = '/' :: 'O' :: 'W' :: 'N' :: 'E' :: 'R' :: 'S' :: rest := rfl
    rw [← harr, if_pos (beginsWith_append _ _), drop_append_len]
  · rename_i c2 s2 hne heq
    injection heq with h1 h2
    subst h1; subst h2
    rw [if_neg]
    intro hb
    rw [beginsWith_iff_take] at hb
    have hsplit : c :: s =
        '/' :: 'O' :: 'W' :: 'N' :: 'E' :: 'R' :: 'S' :: ((c :: s).drop ownersPat.length) := by
      conv_lhs => rw [← List.take_append_drop ownersPat.length (c :: s)]
      rw [hb]
      rfl
    injection hsplit with g1 g2
    exact hne _ g1 g2

/-- Claim C1, counterexample: path normalization is not trailing-suffix
removal.  On the path a/OWNERS.bak/OWNERS the code removes both
occurrences of slash-OWNERS, producing a.bak, not a/OWNERS.bak as the
claim requires. -/
theorem c1_counterexample :
    cleanPath (toL "a/OWNERS.bak/OWNERS") = toL "a.bak"
    ∧ ¬ (cleanPath (toL "a/OWNERS.bak/OWNERS") = toL "a/OWNERS.bak") := by
  constructor
  · decide
  · decide

/-- Claim C1 as amended: path normalization removes every non-overlapping
occurrence of the substring slash-OWNERS, scanning left to right, not only
the trailing one.  When the marker occurs in the path only as the trailing
suffix, exactly that suffix is removed; a path with further occurrences
loses them all, as on src/OWNERS/sub/OWNERS and a/OWNERS.bak/OWNERS. -/
theorem c1_theorem :
    (∀ d : Str, hasSubstr ownersPat d = false → cleanPath (d ++ ownersPat) = d)
    ∧ cleanPath (toL "src/OWNERS/sub/OWNERS") = toL "src/sub"
    ∧ cleanPath (toL "a/OWNERS.bak/OWNERS") = toL "a.bak" := by
  refine ⟨?_, by decide, by decide⟩
  intro d
  induction d with
  | nil => intro _; decide
  | cons c d1 ih =>
    intro h
    have h2 : hasSubstr ownersPat d1 = false := by
      have := h
      simp only [hasSubstr, Bool.or_eq_false_iff] at this
      exact this.2
    have h1 : beginsWith ownersPat (c :: d1) = false := by
      simp only [hasSubstr, Bool.or_eq_false_iff] at h
      exact h.1
    rw [List.cons_append, cleanPath_cons]
    have hbfalse : ¬ (beginsWith ownersPat (c :: (d1 ++ ownersPat)) = true) := by
      intro hb
      rw [beginsWith_iff_take] at hb
      rw [← List.cons_append] at hb
      rcases le_or_lt ownersPat.length (c :: d1).length with hle | hlt
      · have htk : ((c :: d1) ++ ownersPat).take ownersPat.length
            = (c :: d1).take ownersPat.length := List.take_append_of_le_length hle
        rw [htk, ← beginsWith_iff_take, h1] at hb
        exact Bool.false_ne_true hb
      · have hd : c :: d1 = ownersPat.take (c :: d1).length := by
          have e1 : ownersPat.take (c :: d1).length
              = (((c :: d1) ++ ownersPat).take ownersPat.length).take (c :: d1).length := by
            rw [hb]
          rw [List.take_take, min_eq_left (le_of_lt hlt),
            List.take_append_of_le_length (le_refl _), List.take_length] at e1
          exact e1.symm
        have hball : ∀ m, m < ownersPat.length → 0 < m →
            ¬ ((ownersPat.take m ++ ownersPat).take ownersPat.length = ownersPat) := by
          decide
        apply hball (c :: d1).length hlt (by simp)
        rw [← hd]
        exact hb
    rw [if_neg hbfalse, ih h2]

/-- Claim C1, witness for the amended universal statement at the
marker-free directory a/b. -/
theorem c1_witness :
    hasSubstr ownersPat (toL "a/b") = false
    ∧ cleanPath (toL "a/b" ++ ownersPat) = toL "a/b" :=
  ⟨by decide, c1_theorem.1 (toL "a/b") (by decide)⟩

/-- Claim C2, counterexample: the marker file at the repository root does
not normalize to the empty string.  The path OWNERS contains no occurrence
of slash-OWNERS, so Python replace leaves it unchanged and the code yields
OWNERS, not the empty string. -/
theorem c2_counterexample :
    cleanPath (toL "OWNERS") = toL "OWNERS"
    ∧ ¬ (cleanPath (toL "OWNERS") = toL "") := by
  exact ⟨by decide, by decide⟩

/-- Claim C2 as amended: normalization of a/b/OWNERS yields a/b, but the
bare root marker path OWNERS is left unchanged, and a root-level OWNERS
file with a parsed declaration appears in the final map under the key
OWNERS rather than under the empty string. -/
theorem c2_theorem :
    cleanPath (toL "OWNERS") = toL "OWNERS"
    ∧ cleanPath (toL "a/b/OWNERS") = toL "a/b"
    ∧ analyze [toL "OWNERS"]
        (fun p => if p = toL "OWNERS" then some (toL "jira-project PROJ") else none)
      = [(toL "OWNERS", ⟨[kwProj], [toL "PROJ"]⟩)] := by
  exact ⟨by decide, by decide, by decide⟩

/-- Claim C3, counterexample: a line whose first word merely has the
keyword as a proper prefix is not always ignored.  The line
jira-projectx jira-project X passes the startswith test and the regex
search then matches at the later occurrence, so the line contributes the
pair of jira-project and X, where the claim requires no contribution. -/
theorem c3_counterexample :
    parse (toL "jira-projectx jira-project X") = [(kwProj, toL "X")]
    ∧ ¬ (parse (toL "jira-projectx jira-project X") = []) := by
  exact ⟨by decide, by decide⟩

/-- Claim C3 as amended: a stripped, nonempty, non-comment line
contributes a pair only if the keyword is a string prefix of the line
(not necessarily a whole whitespace-delimited token); a line on which
neither keyword is a prefix, such as one where a keyword appears only
later, contributes nothing; but a line whose first word has the keyword as
a proper prefix can still contribute when the extraction pattern matches
later in the line. -/
theorem c3_theorem :
    (∀ line : Str, beginsWith kwProj line = false → beginsWith kwComp line = false →
      lineContrib line = none)
    ∧ parse (toL "see jira-project X") = []
    ∧ parse (toL "jira-projectx jira-project X") = [(kwProj, toL "X")]
    ∧ parse (toL "jira-projectx y") = [] := by
  refine ⟨?_, by decide, by decide, by decide⟩
  intro line h1 h2
  simp [lineContrib, h1, h2]

/-- Claim C3, witness for the amended universal statement at a line on
which neither keyword is a prefix. -/
theorem c3_witness :
    beginsWith kwProj (toL "hello world") = false
    ∧ beginsWith kwComp (toL "hello world") = false
    ∧ lineContrib (toL "hello world") = none :=
  ⟨by decide, by decide,
    c3_theorem.1 (toL "hello world") (by decide) (by decide)⟩

theorem takeNonQuote_all (v : Str) (h : ∀ c ∈ v, isQuote c = false) :
    takeNonQuote v = v := by
  induction v with
  | nil => rfl
  | cons a v ih =>
    have ha : isQuote a = false := h a (by simp)
    rw [takeNonQuote, List.takeWhile_cons]
    simp only [ha, Bool.not_false, if_true]
    rw [show v.takeWhile (fun c => !(isQuote c)) = takeNonQuote v from rfl]
    rw [ih (fun c hc => h c (by simp [hc]))]

theorem takeNonQuote_closed (v : Str) (h : ∀ c ∈ v, isQuote c = false)
    (q : Char) (hq : isQuote q = true) (t : Str) :
    takeNonQuote (v ++ q :: t) = v := by
  induction v with
  | nil => simp [takeNonQuote, List.takeWhile_cons, hq]
  | cons a v ih =>
    have ha : isQuote a = false := h a (by simp)
    rw [List.cons_append, takeNonQuote, List.takeWhile_cons]
    simp only [ha, Bool.not_false, if_true]
    rw [show (v ++ q :: t).takeWhile (fun c => !(isQuote c)) = takeNonQuote (v ++ q :: t)
      from rfl]
    rw [ih (fun c hc => h c (by simp [hc]))]

theorem takeNonQuote_sub (s : Str) : ∀ c ∈ takeNonQuote s, isQuote c = false := by
  intro c hc
  have := List.mem_takeWhile_imp hc
  simpa using this

theorem tailMatch_quote (q : Char) (hq : isQuote q = true) (w : Str)
    (hw : takeNonQuote w ≠ []) : tailMatch (q :: w) = some (takeNonQuote w) := by
  simp [tailMatch, hq, hw]

theorem tailMatch_nonquote (c : Char) (hc : isQuote c = false) (t : Str) :
    tailMatch (c :: t) = some (takeNonQuote (c :: t)) := by
  simp [tailMatch, hc]

theorem matchAfterKw_single (r : Str) (hr : r.takeWhile pyIsSpace = []) :
    matchAfterKw (' ' :: r) = tailMatch r := by
  unfold matchAfterKw
  have hw : (' ' :: r).takeWhile pyIsSpace = [' '] := by
    rw [List.takeWhile_cons]
    simp [pyIsSpace, hr]
  rw [hw]
  show tryWs (' ' :: r) 1 = tailMatch r
  simp only [tryWs, List.drop_succ_cons, List.drop_zero]
  cases tailMatch r <;> simp [tryWs]

theorem matchAfterKw_quote (q : Char) (hq : isQuote q = true) (w : Str)
    (hw : takeNonQuote w ≠ []) :
    matchAfterKw (' ' :: q :: w) = some (takeNonQuote w) := by
  rw [matchAfterKw_single]
  · exact tailMatch_quote q hq w hw
  · have hqs : pyIsSpace q = false := by
      have : q = sq ∨ q = dq := by simpa [isQuote] using hq
      rcases this with rfl | rfl <;> decide
    rw [List.takeWhile_cons]
    simp [hqs]

theorem matchAfterKw_bare (c0 : Char) (t : Str) (hc : pyIsSpace c0 = false)
    (hq : isQuote c0 = false) :
    matchAfterKw (' ' :: c0 :: t) = some (takeNonQuote (c0 :: t)) := by
  rw [matchAfterKw_single]
  · exact tailMatch_nonquote c0 hq t
  · rw [List.takeWhile_cons]
    simp [hc]

theorem reSearch_head (kw rest : Str) (hk : kw ≠ []) (v : Str)
    (hm : matchAfterKw rest = some v) : reSearch kw (kw ++ rest) = some v := by
  cases kw with
  | nil => exact absurd rfl hk
  | cons k0 kw1 =>
    rw [List.cons_append, reSearch, ← List.cons_append]
    simp only [beginsWith_append, drop_append_len, hm]
    simp

theorem beginsWith_append_left (p q rest : Str) (h : p.length ≤ q.length) :
    beginsWith p (q ++ rest) = beginsWith p q := by
  have h1 := beginsWith_iff_take p (q ++ rest)
  have h2 := beginsWith_iff_take p q
  rw [List.take_append_of_le_length h] at h1
  cases hq2 : beginsWith p q with
  | false =>
    cases hq1 : beginsWith p (q ++ rest) with
    | false => rfl
    | true =>
      have := h2.mpr (h1.mp hq1)
      rw [hq2] at this
      exact absurd this (by simp)
  | true =>
    cases hq1 : beginsWith p (q ++ rest) with
    | true => rfl
    | false =>
      have := h1.mpr (h2.mp hq2)
      rw [hq1] at this
      exact absurd this (by simp)

theorem lineContrib_proj (rest v : Str) (hm : matchAfterKw rest = some v) :
    lineContrib (kwProj ++ rest) = some (kwProj, v) := by
  have hbw : beginsWith kwProj (kwProj ++ rest) = true := beginsWith_append _ _
  have hs := reSearch_head kwProj rest (by decide) v hm
  simp [lineContrib, hbw, hs]

theorem lineContrib_comp (rest v : Str) (hm : matchAfterKw rest = some v) :
    lineContrib (kwComp ++ rest) = some (kwComp, v) := by
  have h1 : beginsWith kwProj (kwComp ++ rest) = false := by
    rw [beginsWith_append_left _ _ _ (by decide)]
    decide
  have h2 : beginsWith kwComp (kwComp ++ rest) = true := beginsWith_append _ _
  have hs := reSearch_head kwComp rest (by decide) v hm
  simp [lineContrib, h1, h2, hs]

/-- Claim C4: value extraction follows the fixed pattern keyword, one or
more whitespace characters, optional opening quote, a capture of one or
more non-quote characters, optional closing quote.  For a quote-free
nonempty value the double-quoted, single-quoted and bare spellings all
yield the same pair; an unbalanced opening quote captures everything to
the end of the line; a keyword with no value following contributes
nothing and is not an error. -/
theorem c4_theorem :
    (∀ v : Str, v ≠ [] → (∀ c ∈ v, isQuote c = false) →
      lineContrib (kwProj ++ ' ' :: dq :: (v ++ [dq])) = some (kwProj, v)
      ∧ lineContrib (kwProj ++ ' ' :: sq :: (v ++ [sq])) = some (kwProj, v)
      ∧ lineContrib (kwProj ++ ' ' :: sq :: v) = some (kwProj, v)
      ∧ lineContrib (kwComp ++ ' ' :: dq :: (v ++ [dq])) = some (kwComp, v)
      ∧ (∀ c0 t, v = c0 :: t → pyIsSpace c0 = false →
          lineContrib (kwProj ++ ' ' :: v) = some (kwProj, v)))
    ∧ lineContrib kwProj = none ∧ lineContrib kwComp = none := by
  refine ⟨?_, by decide, by decide⟩
  intro v hne hv
  have hdqv : takeNonQuote (v ++ [dq]) = v :=
    takeNonQuote_closed v hv dq (by decide) []
  have hsqv : takeNonQuote (v ++ [sq]) = v :=
    takeNonQuote_closed v hv sq (by decide) []
  have hallv : takeNonQuote v = v := takeNonQuote_all v hv
  refine ⟨?_, ?_, ?_, ?_, ?_⟩
  · apply lineContrib_proj
    rw [matchAfterKw_quote dq (by decide) _ (by rw [hdqv]; exact hne), hdqv]
  · apply lineContrib_proj
    rw [matchAfterKw_quote sq (by decide) _ (by rw [hsqv]; exact hne), hsqv]
  · apply lineContrib_proj
    rw [matchAfterKw_quote sq (by decide) _ (by rw [hallv]; exact hne), hallv]
  · apply lineContrib_comp
    rw [matchAfterKw_quote dq (by decide) _ (by rw [hdqv]; exact hne), hdqv]
  · intro c0 t hvt hc0
    apply lineContrib_proj
    subst hvt
    rw [matchAfterKw_bare c0 t hc0 (hv c0 (by simp))]
    rw [takeNonQuote_all _ hv]

/-- Claim C4, witness at the value X: the double-quoted spelling yields
the pair of jira-project and X. -/
theorem c4_witness :
    (toL "X" ≠ [] ∧ ∀ c ∈ toL "X", isQuote c = false)
    ∧ lineContrib (kwProj ++ ' ' :: dq :: (toL "X" ++ [dq])) = some (kwProj, toL "X") :=
  ⟨⟨by decide, by decide⟩, (c4_theorem.1 (toL "X") (by decide) (by decide)).1⟩

theorem splitNl_cons (c : Char) (s : Str) :
    splitNl (c :: s) =
      match splitNl s with
      | [] => [[c]]
      | a :: as => if c = '\n' then [] :: a :: as else (c :: a) :: as := rfl

theorem splitNl_ne_nil (s : Str) : splitNl s ≠ [] := by
  induction s with
  | nil => simp [splitNl]
  | cons c s ih =>
    rw [splitNl_cons]
    cases hs : splitNl s with
    | nil => simp
    | cons a as =>
      by_cases hc : c = '\n' <;> simp [hc]

theorem splitNl_no_nl (a : Str) (h : '\n' ∉ a) : splitNl a = [a] := by
  induction a with
  | nil => rfl
  | cons c s ih =>
    have hc : c ≠ '\n' := by
      intro e
      exact h (by simp [e])
    have hs : '\n' ∉ s := fun hm => h (by simp [hm])
    rw [splitNl_cons, ih hs]
    simp [hc]

theorem splitNl_append (a b : Str) (h : '\n' ∉ a) :
    splitNl (a ++ '\n' :: b) = a :: splitNl b := by
  induction a with
  | nil =>
    rw [List.nil_append, splitNl_cons]
    obtain ⟨hd, tl, he⟩ : ∃ hd tl, splitNl b = hd :: tl := by
      cases hsb : splitNl b with
      | nil => exact absurd hsb (splitNl_ne_nil b)
      | cons hd tl => exact ⟨hd, tl, rfl⟩
    rw [he]
    simp
  | cons c s ih =>
    have hc : c ≠ '\n' := by
      intro e
      exact h (by simp [e])
    have hs : '\n' ∉ s := fun hm => h (by simp [hm])
    rw [List.cons_append, splitNl_cons, ih hs]
    simp [hc]

theorem parse_append (a b : Str) (h : '\n' ∉ a) :
    parse (a ++ '\n' :: b) = parse a ++ parse b := by
  unfold parse
  rw [splitNl_append a b h, splitNl_no_nl a h, List.filterMap_cons, List.filterMap_cons]
  cases parseLine a <;> simp

/-- Claim C5: pairs are emitted in the order the declaration lines appear,
with no sorting and no deduplication: the three-line content with
declarations in the order project, component, project parses to exactly
those three pairs in that order, the duplicate kept; and the parser is a
homomorphism over line concatenation, so the pairs of a file are the
concatenation, in order, of the pairs of its lines. -/
theorem c5_theorem :
    parse (toL "jira-project A" ++ '\n' ::
        (toL "jira-component B" ++ '\n' :: toL "jira-project A"))
      = [(kwProj, toL "A"), (kwComp, toL "B"), (kwProj, toL "A")]
    ∧ ∀ a b : Str, '\n' ∉ a → parse (a ++ '\n' :: b) = parse a ++ parse b := by
  exact ⟨by decide, parse_append⟩

/-- Claim C5, witness for the order-preserving split at a concrete two
line content. -/
theorem c5_witness :
    '\n' ∉ toL "jira-project A"
    ∧ parse (toL "jira-project A" ++ '\n' :: toL "some other line")
        = parse (toL "jira-project A") ++ parse (toL "some other line") :=
  ⟨by decide, c5_theorem.2 (toL "jira-project A") (toL "some other line") (by decide)⟩

/-- Claim C6: a line that is empty after stripping, or whose first
character after stripping is the hash character, contributes no pair; a
content all of whose lines are blank or comments parses to the empty
sequence, and with such a file at a/OWNERS and a declaration file at
b/OWNERS the aggregate has an entry only for b. -/
theorem c6_theorem :
    (∀ content : Str,
        (∀ l ∈ splitNl content, pyStrip l = [] ∨ beginsWith ['#'] (pyStrip l) = true) →
        parse content = [])
    ∧ analyze [toL "a/OWNERS", toL "b/OWNERS"]
        (fun p => if p = toL "a/OWNERS" then some (toL "# comment only\n\n   # more")
                  else if p = toL "b/OWNERS" then some (toL "jira-project X") else none)
      = [(toL "b", ⟨[kwProj], [toL "X"]⟩)] := by
  refine ⟨?_, by decide⟩
  intro content hall
  unfold parse
  rw [List.filterMap_eq_nil_iff]
  intro l hl
  rcases hall l hl with he | hc
  · simp [parseLine, he]
  · simp [parseLine, hc]

/-- Claim C6, witness for the comments-and-blanks-only content. -/
theorem c6_witness :
    (∀ l ∈ splitNl (toL "# note\n\n   "),
        pyStrip l = [] ∨ beginsWith ['#'] (pyStrip l) = true)
    ∧ parse (toL "# note\n\n   ") = [] :=
  ⟨by decide, c6_theorem.1 (toL "# note\n\n   ") (by decide)⟩

theorem dictInsert_mem (m : OwnMap) (k : Str) (v : OwnRecord)
    (e : Str × OwnRecord) (he : e ∈ dictInsert m k v) : e = (k, v) ∨ e ∈ m := by
  induction m with
  | nil => simpa [dictInsert] using he
  | cons kv m ih =>
    obtain ⟨k0, v0⟩ := kv
    by_cases hk : k0 = k
    · rw [dictInsert, if_pos hk] at he
      rcases List.mem_cons.mp he with he | he
      · exact Or.inl he
      · exact Or.inr (List.mem_cons_of_mem _ he)
    · rw [dictInsert, if_neg hk] at he
      rcases List.mem_cons.mp he with he | he
      · exact Or.inr (by simp [he])
      · rcases ih he with he2 | he2
        · exact Or.inl he2
        · exact Or.inr (List.mem_cons_of_mem _ he2)

theorem processPath_none (lk : Str → Option Str) (acc : OwnMap) (p : Str)
    (h : lk p = none) : processPath lk acc p = acc := by
  unfold processPath
  rw [h]

theorem processPath_some (lk : Str → Option Str) (acc : OwnMap) (p : Str) (c : Str)
    (h : lk p = some c) :
    processPath lk acc p =
      if c ≠ [] then
        if (parse c).map Prod.fst ≠ [] ∧ (parse c).map Prod.snd ≠ [] then
          dictInsert acc (cleanPath p) ⟨(parse c).map Prod.fst, (parse c).map Prod.snd⟩
        else acc
      else acc := by
  unfold processPath
  rw [h]

theorem processPath_mem (lk : Str → Option Str) (acc : OwnMap) (p : Str)
    (e : Str × OwnRecord) (he : e ∈ processPath lk acc p) :
    e ∈ acc ∨ ∃ c, lk p = some c ∧ c ≠ [] ∧ parse c ≠ [] ∧
      e = (cleanPath p, ⟨(parse c).map Prod.fst, (parse c).map Prod.snd⟩) := by
  cases hlk : lk p with
  | none => rw [processPath_none lk acc p hlk] at he; exact Or.inl he
  | some c =>
    rw [processPath_some lk acc p c hlk] at he
    by_cases hc : c ≠ []
    · rw [if_pos hc] at he
      by_cases hl : (parse c).map Prod.fst ≠ [] ∧ (parse c).map Prod.snd ≠ []
      · rw [if_pos hl] at he
        rcases dictInsert_mem _ _ _ _ he with he2 | he2
        · refine Or.inr ⟨c, rfl, hc, ?_, he2⟩
          intro hp
          exact hl.1 (by simp [hp])
        · exact Or.inl he2
      · rw [if_neg hl] at he; exact Or.inl he
    · rw [if_neg hc] at he; exact Or.inl he

theorem analyze_mem (lk : Str → Option Str) (ps : List Str) :
    ∀ (acc : OwnMap) (e : Str × OwnRecord), e ∈ List.foldl (processPath lk) acc ps →
      e ∈ acc ∨ ∃ p, p ∈ ps ∧ ∃ c, lk p = some c ∧ c ≠ [] ∧ parse c ≠ [] ∧
        e = (cleanPath p, ⟨(parse c).map Prod.fst, (parse c).map Prod.snd⟩) := by
  induction ps with
  | nil =>
    intro acc e he
    exact Or.inl (by simpa using he)
  | cons p ps ih =>
    intro acc e he
    rw [List.foldl_cons] at he
    rcases ih _ e he with hacc | ⟨q, hq, hrest⟩
    · rcases processPath_mem lk acc p e hacc with h | ⟨c, hc⟩
      · exact Or.inl h
      · exact Or.inr ⟨p, by simp, c, hc⟩
    · exact Or.inr ⟨q, by simp [hq], hrest⟩

/-- Claim C7: every entry of the output map has label and owner lists of
equal length, index-aligned as the two projections of the parsed pair
sequence of the contributing content, and both lists are nonempty; a
directory whose parsed pair sequence is empty never receives an entry. -/
theorem c7_theorem (paths : List Str) (lookup : Str → Option Str)
    (d : Str) (r : OwnRecord) (hmem : (d, r) ∈ analyze paths lookup) :
    r.labels.length = r.owners.length ∧ r.labels ≠ [] ∧ r.owners ≠ []
    ∧ ∃ p, p ∈ paths ∧ cleanPath p = d ∧ ∃ c, lookup p = some c ∧
        r.labels = (parse c).map Prod.fst ∧ r.owners = (parse c).map Prod.snd := by
  rcases analyze_mem lookup paths [] (d, r) hmem with h | ⟨p, hp, c, hlk, hc, hpc, heq⟩
  · simp at h
  · rw [Prod.ext_iff] at heq
    obtain ⟨hd, hr⟩ := heq
    simp only at hd hr
    subst hr
    refine ⟨by simp, ?_, ?_, p, hp, hd.symm, c, hlk, rfl, rfl⟩
    · simpa using hpc
    · simpa using hpc

/-- Claim C7, witness at a one-file repository. -/
theorem c7_witness :
    ((toL "a", (⟨[kwProj], [toL "A"]⟩ : OwnRecord)) ∈
        analyze [toL "a/OWNERS"]
          (fun p => if p = toL "a/OWNERS" then some (toL "jira-project A") else none))
    ∧ ([kwProj] : List Str).length = ([toL "A"] : List Str).length :=
  ⟨by decide,
    (c7_theorem [toL "a/OWNERS"]
      (fun p => if p = toL "a/OWNERS" then some (toL "jira-project A") else none)
      (toL "a") ⟨[kwProj], [toL "A"]⟩ (by decide)).1⟩

/-- Claim C8: a discovered path whose content fetch is absent is skipped
entirely: the aggregate over any discovery list containing it equals the
aggregate over the same list with that path removed, so no entry arises
from it and every other path is processed exactly as before. -/
theorem c8_theorem (l1 l2 : List Str) (p : Str) (lookup : Str → Option Str)
    (h : lookup p = none) :
    analyze (l1 ++ p :: l2) lookup = analyze (l1 ++ l2) lookup := by
  unfold analyze
  rw [List.foldl_append, List.foldl_append, List.foldl_cons]
  congr 1
  exact processPath_none lookup _ p h

/-- Claim C8, witness: dropping an unreadable path from a two-path
discovery leaves the aggregate unchanged. -/
theorem c8_witness :
    ((fun q => if q = toL "x/OWNERS" then some (toL "jira-project A") else none)
        (toL "gone/OWNERS") = none)
    ∧ analyze ([toL "x/OWNERS"] ++ toL "gone/OWNERS" :: [])
        (fun q => if q = toL "x/OWNERS" then some (toL "jira-project A") else none)
      = analyze ([toL "x/OWNERS"] ++ [])
        (fun q => if q = toL "x/OWNERS" then some (toL "jira-project A") else none) :=
  ⟨by decide,
    c8_theorem [toL "x/OWNERS"] [] (toL "gone/OWNERS")
      (fun q => if q = toL "x/OWNERS" then some (toL "jira-project A") else none)
      (by decide)⟩

/-- Claim C9: when two discovered paths normalize to the same directory,
the record of the later path fully replaces the record of the earlier one
in the final map, with no merging of the pair sequences. -/
theorem c9_theorem (p1 p2 : Str) (lookup : Str → Option Str) (c1 c2 : Str)
    (h1 : lookup p1 = some c1) (h2 : lookup p2 = some c2)
    (hne1 : c1 ≠ []) (hne2 : c2 ≠ [])
    (hp1 : parse c1 ≠ []) (hp2 : parse c2 ≠ [])
    (hd : cleanPath p1 = cleanPath p2) :
    analyze [p1, p2] lookup
      = [(cleanPath p2, ⟨(parse c2).map Prod.fst, (parse c2).map Prod.snd⟩)] := by
  have hl1 : (parse c1).map Prod.fst ≠ [] ∧ (parse c1).map Prod.snd ≠ [] := by
    constructor <;> simpa using hp1
  have hl2 : (parse c2).map Prod.fst ≠ [] ∧ (parse c2).map Prod.snd ≠ [] := by
    constructor <;> simpa using hp2
  unfold analyze
  rw [List.foldl_cons, List.foldl_cons, List.foldl_nil]
  have e1 : processPath lookup [] p1
      = [(cleanPath p1, ⟨(parse c1).map Prod.fst, (parse c1).map Prod.snd⟩)] := by
    rw [processPath_some lookup [] p1 c1 h1, if_pos hne1, if_pos hl1]
    rfl
  rw [e1, processPath_some lookup _ p2 c2 h2, if_pos hne2, if_pos hl2]
  rw [dictInsert, if_pos hd]

/-- Claim C9, witness: the paths a/OWNERS and a/OWNERS/OWNERS both
normalize to a, and the later record alone survives. -/
theorem c9_witness :
    (cleanPath (toL "a/OWNERS") = cleanPath (toL "a/OWNERS/OWNERS"))
    ∧ analyze [toL "a/OWNERS", toL "a/OWNERS/OWNERS"]
        (fun p => if p = toL "a/OWNERS" then some (toL "jira-project A")
                  else some (toL "jira-component B"))
      = [(cleanPath (toL "a/OWNERS/OWNERS"),
          ⟨(parse (toL "jira-component B")).map Prod.fst,
           (parse (toL "jira-component B")).map Prod.snd⟩)] :=
  ⟨by decide,
    c9_theorem (toL "a/OWNERS") (toL "a/OWNERS/OWNERS")
      (fun p => if p = toL "a/OWNERS" then some (toL "jira-project A")
                else some (toL "jira-component B"))
      (toL "jira-project A") (toL "jira-component B")
      (by decide) (by decide) (by decide) (by decide) (by decide) (by decide)
      (by decide)⟩

theorem tailMatch_sound (t v : Str) (h : tailMatch t = some v) :
    v ≠ [] ∧ ∀ c ∈ v, isQuote c = false := by
  cases t with
  | nil => simp [tailMatch] at h
  | cons c t =>
    by_cases hq : isQuote c = true
    · simp only [tailMatch] at h
      rw [if_pos hq] at h
      by_cases he : takeNonQuote t = []
      · rw [if_pos he] at h
        exact absurd h (by simp)
      · rw [if_neg he] at h
        have hv : takeNonQuote t = v := Option.some.inj h
        subst hv
        exact ⟨he, takeNonQuote_sub t⟩
    · simp only [tailMatch] at h
      rw [if_neg hq] at h
      have hv : takeNonQuote (c :: t) = v := Option.some.inj h
      subst hv
      constructor
      · rw [takeNonQuote, List.takeWhile_cons]
        simp [Bool.eq_false_iff.mp (by simpa using hq)]
      · exact takeNonQuote_sub (c :: t)

theorem tryWs_sound (rest : Str) (k : Nat) (v : Str) (h : tryWs rest k = some v) :
    v ≠ [] ∧ ∀ c ∈ v, isQuote c = false := by
  induction k with
  | zero => simp [tryWs] at h
  | succ k ih =>
    simp only [tryWs] at h
    cases htm : tailMatch (rest.drop (k + 1)) with
    | some cap =>
      rw [htm] at h
      have : cap = v := by simpa using h
      subst this
      exact tailMatch_sound _ _ htm
    | none =>
      rw [htm] at h
      exact ih (by simpa using h)

theorem reSearch_sound (kw : Str) : ∀ s v : Str, reSearch kw s = some v →
    v ≠ [] ∧ ∀ c ∈ v, isQuote c = false := by
  intro s
  induction s with
  | nil =>
    intro v h
    simp [reSearch] at h
  | cons c s ih =>
    intro v h
    rw [reSearch] at h
    by_cases hb : beginsWith kw (c :: s) = true
    · rw [if_pos hb] at h
      cases hm : matchAfterKw ((c :: s).drop kw.length) with
      | some cap =>
        rw [hm] at h
        have : cap = v := by simpa using h
        subst this
        unfold matchAfterKw at hm
        exact tryWs_sound _ _ _ hm
      | none =>
        rw [hm] at h
        exact ih v (by simpa using h)
    · rw [if_neg hb] at h
      exact ih v h

/-- Claim C10: every value emitted by the parser is nonempty and contains
no single-quote and no double-quote character; a declaration whose quoted
value is empty yields no pair; a value is cut off at the first quote
character encountered. -/
theorem c10_theorem :
    (∀ (content : Str) (pr : Str × Str), pr ∈ parse content →
        pr.2 ≠ [] ∧ ∀ c ∈ pr.2, isQuote c = false)
    ∧ parse (toL "jira-project " ++ [dq, dq]) = []
    ∧ lineContrib (toL "jira-project ab" ++ dq :: toL "cd") = some (kwProj, toL "ab") := by
  refine ⟨?_, by decide, by decide⟩
  intro content pr hpr
  unfold parse at hpr
  rw [List.mem_filterMap] at hpr
  obtain ⟨l, _, hpl⟩ := hpr
  simp only [parseLine] at hpl
  by_cases hcond : pyStrip l ≠ [] ∧ ¬ (beginsWith ['#'] (pyStrip l) = true)
  · rw [if_pos hcond] at hpl
    unfold lineContrib at hpl
    by_cases hb1 : beginsWith kwProj (pyStrip l) = true
    · rw [if_pos hb1] at hpl
      cases hrs : reSearch kwProj (pyStrip l) with
      | none => rw [hrs] at hpl; exact absurd hpl (by simp)
      | some v =>
        rw [hrs] at hpl
        have hv : (kwProj, v) = pr := by simpa using hpl
        subst hv
        exact reSearch_sound kwProj (pyStrip l) v hrs
    · rw [if_neg hb1] at hpl
      by_cases hb2 : beginsWith kwComp (pyStrip l) = true
      · rw [if_pos hb2] at hpl
        cases hrs : reSearch kwComp (pyStrip l) with
        | none => rw [hrs] at hpl; exact absurd hpl (by simp)
        | some v =>
          rw [hrs] at hpl
          have hv : (kwComp, v) = pr := by simpa using hpl
          subst hv
          exact reSearch_sound kwComp (pyStrip l) v hrs
      · rw [if_neg hb2] at hpl
        exact absurd hpl (by simp)
  · rw [if_neg hcond] at hpl
    exact absurd hpl (by simp)

/-- Claim C10, witness at a one-declaration content. -/
theorem c10_witness :
    ((kwProj, toL "A") ∈ parse (toL "jira-project A"))
    ∧ (toL "A" ≠ [] ∧ ∀ c ∈ toL "A", isQuote c = false) :=
  ⟨by decide, c10_theorem.1 (toL "jira-project A") (kwProj, toL "A") (by decide)⟩

end O2co
